import Mathlib

/-!
Verification of the response-detection core of `src/utils/page-utils.ts`
(NotebookLM MCP server).

The TypeScript source is shallowly embedded: pure string helpers become Lean
functions on `String`/`List Char`; the DOM is abstracted into small data
models (the texts and attribute values the code actually reads); the polling
loop of `waitForLatestAnswer` becomes an explicit state-passing recursion fed
by a clock function and a per-poll page model.  JavaScript semantics are
mapped as follows: strings are lists of chars (`charCodeAt` is `Char.toNat`,
exact for the basic plane); the regex class `\s` is modeled by `isWS`
(space, tab, newline, carriage return — the whitespace the code encounters);
JS string falsiness (empty string) is an explicit `= ""` test; 32-bit
wrapping (`| 0` / `& hash`) is `toInt32` on `Int`; a JS `Set` is a
duplicate-free list.
-/

set_option maxHeartbeats 1000000
set_option maxRecDepth 10000

namespace NB

/-! ## Whitespace, trimming and normalization -/

/-- Whitespace as matched by the source's uses of `\s` and `String.trim`. -/
def isWS (c : Char) : Bool := c = ' ' || c = '\t' || c = '\n' || c = '\r'

/-- One pass of `value.replace(/\s+/g, " ")`: `prevWS` records whether the
previously read character was inside a whitespace run whose single `' '`
has already been emitted. -/
def collapseAux : Bool → List Char → List Char
  | _, [] => []
  | prevWS, c :: cs =>
    if isWS c then
      if prevWS then collapseAux true cs else ' ' :: collapseAux true cs
    else c :: collapseAux false cs

/-- `value.replace(/\s+/g, " ")` on the character list. -/
def collapseWS (l : List Char) : List Char := collapseAux false l

/-- Drop trailing whitespace. -/
def dropTrail (l : List Char) : List Char := (l.reverse.dropWhile isWS).reverse

/-- JS `String.prototype.trim` on the character list. -/
def trimChars (l : List Char) : List Char := dropTrail (l.dropWhile isWS)

/-- JS `value.trim()`. -/
def trimStr (s : String) : String := ⟨trimChars s.data⟩

/-- `normalizeText(value)` from page-utils.ts: `value.replace(/\s+/g, " ").trim()`. -/
def normalizeText (s : String) : String := ⟨trimChars (collapseWS s.data)⟩

/-- `value.replace(/\s+/g, " ")` on a string (used to state the anchored
noise-label patterns containing `\s+`). -/
def collapseText (s : String) : String := ⟨collapseWS s.data⟩

/-- JS `value.toLowerCase()`, per character (`Char.toLower`; the texts the
code compares case-insensitively are mapped character by character). -/
def toLowerStr (s : String) : String := ⟨s.data.map Char.toLower⟩

/-! ## hashString -/

/-- JS `ToInt32`: wrap an integer into the signed 32-bit range. -/
def toInt32 (n : Int) : Int := (n + 2 ^ 31) % 2 ^ 32 - 2 ^ 31

/-- One step of `hashString`'s loop:
`hash = (hash << 5) - hash + char; hash = hash & hash;`.
`hash << 5` coerces to int32, as does the final `& hash`. -/
def hashStep (h : Int) (c : Char) : Int := toInt32 (toInt32 (h * 32) - h + c.toNat)

/-- `hashString(str)` from page-utils.ts (lines 63-71). -/
def hashString (s : String) : Int := s.data.foldl hashStep 0

/-! ## isLikelySameAnswer -/

/-- `isLikelySameAnswer(candidate, expected)` from page-utils.ts (lines 77-86).
`a.includes(b)` is infix containment on the character lists. -/
def isLikelySameAnswer (candidate expected : String) : Bool :=
  let a := normalizeText candidate
  let b := normalizeText expected
  if a = "" ∨ b = "" then false
  else if a = b then true
  else if 80 ≤ a.length ∧ 80 ≤ b.length then
    decide (b.data <:+: a.data) || decide (a.data <:+: b.data)
  else false

/-! ## Source extraction (`extractSourcesFromContainer`)

The DOM subtree is abstracted to exactly the data the injected script reads:
the `http(s)` anchors (href and text), for each citation marker the raw
label values handed to `pushCandidate` in order (missing attributes read as
`""`), and the texts of the non-anchor elements matched by the
source-like selector list, in selector order. -/

/-- JS `a || b` on strings (empty string is falsy). -/
def strOr (a b : String) : String := if a = "" then b else a

/-- `stripCitationPrefix(value)`: `value.replace(/^\s*\d+\s*[:.)-]\s*/, "").trim()`.
The anchored greedy regex is deterministic, so it is parsed directly:
leading `\s*`, then `\d+` (no digit means no match), `\s*`, one of `:.)-`,
and a final `\s*`; when the whole prefix matches it is removed, and the
remainder (or, with no match, the whole string) is trimmed. -/
def stripCitationPrefix (s : String) : String :=
  if (List.takeWhile Char.isDigit (List.dropWhile isWS s.data)).isEmpty then ⟨trimChars s.data⟩
  else
    match List.dropWhile isWS (List.dropWhile Char.isDigit (List.dropWhile isWS s.data)) with
    | [] => ⟨trimChars s.data⟩
    | c :: rest =>
      if c = ':' ∨ c = '.' ∨ c = ')' ∨ c = '-' then ⟨trimChars (List.dropWhile isWS rest)⟩
      else ⟨trimChars s.data⟩

/-- `isNumericOnly(value)`: `/^\d+$/.test(value)`. -/
def isNumericOnly (s : String) : Bool := !s.data.isEmpty && s.data.all Char.isDigit

/-- `isNoiseLabel(value)` from the injected script.  The input is lowercased
and trimmed first; the anchored patterns with `\s+` gaps are matched after
collapsing whitespace runs to single spaces, which is equivalent for the
anchored alternatives of the source. -/
def isNoiseLabel (value : String) : Bool :=
  let n := trimStr (toLowerStr value)
  if n = "" then true
  else if n.data.all (fun c => c = '.' || c = '…' || c = '·' || c = '•') then true
  else if n = "citation details" ∨ n = "click to open citation details" then true
  else
    let w := collapseText n
    w = "show citations" ∨ w = "show citation" ∨ w = "hide citations" ∨ w = "hide citation" ∨
    w = "show additional citations" ∨ w = "show additional citation" ∨
    w = "hide additional citations" ∨ w = "hide additional citation" ∨
    w = "show more citations" ∨ w = "show more citation" ∨
    w = "hide more citations" ∨ w = "hide more citation" ∨
    w = "more citations" ∨ w = "more citation"

/-- A source reference as returned to the caller
(`{title, url?, raw_text}`). -/
structure SourceRef where
  title : String
  url : Option String
  raw_text : String
deriving DecidableEq, Repr

/-- The reference object pushed by `addRef` once the guards have passed,
built from the computed `normalizedTitle`, `normalizedUrl` and
`normalizedRaw`. -/
def mkRef (nt nu nraw : String) : SourceRef :=
  { title := strOr nt (strOr nu "Untitled source")
    url := if nu = "" then none else some nu
    raw_text := strOr nraw (strOr nt nu) }

/-- The in-page accumulator: the `unique` key set and the `refs` array. -/
structure ExtractState where
  unique : List String
  refs : List SourceRef
deriving Repr

/-- The dedup key `${normalizedTitle.toLowerCase()}|${normalizedUrl.toLowerCase()}`. -/
def keyOf (nt nu : String) : String := toLowerStr nt ++ "|" ++ toLowerStr nu

/-- The body of `addRef` after its three `normalized*` values have been
computed: the two rejection guards, the `unique` check, and the push. -/
def addRefCore (st : ExtractState) (normalizedTitle normalizedUrl normalizedRaw : String) :
    ExtractState :=
  if normalizedTitle = "" ∧ normalizedUrl = "" then st
  else if normalizedUrl = "" ∧ (isNoiseLabel normalizedTitle ∨ isNumericOnly normalizedTitle) then st
  else
    if keyOf normalizedTitle normalizedUrl ∈ st.unique then st
    else { unique := keyOf normalizedTitle normalizedUrl :: st.unique
           refs := st.refs ++ [mkRef normalizedTitle normalizedUrl normalizedRaw] }

/-- `addRef(title, url, rawText)` from the injected script; `url`/`rawText`
are `none` when the call site passes `undefined`. -/
def addRef (st : ExtractState) (title : String) (url : Option String)
    (rawText : Option String) : ExtractState :=
  addRefCore st (stripCitationPrefix (normalizeText title))
    (normalizeText (url.getD ""))
    (normalizeText (strOr (rawText.getD "")
      (strOr (stripCitationPrefix (normalizeText title)) "")))

/-- An `a[href]` hyperlink inside the container. -/
structure AnchorModel where
  href : String
  text : String
deriving DecidableEq, Repr

/-- `/^https?:/i.test(href)`. -/
def isHttpHref (h : String) : Bool :=
  "http:".data.isPrefixOf (toLowerStr h).data || "https:".data.isPrefixOf (toLowerStr h).data

/-- Processing of one anchor (the first `querySelectorAll` loop). -/
def processAnchor (st : ExtractState) (a : AnchorModel) : ExtractState :=
  if a.href = "" then st
  else if !isHttpHref a.href then st
  else addRef st (strOr a.text a.href) (some a.href) (some (strOr a.text a.href))

/-- A citation-marker element, abstracted to the raw values handed to
`pushCandidate` in order: `aria-label`, `title`, `dialoglabel`,
`triggerdescription`, `innerText`, then the labelled children's
`aria-label`/`title` values. -/
structure MarkerModel where
  attrs : List String
deriving DecidableEq, Repr

/-- `pushCandidate(value)`: normalize, drop empty and noise labels. -/
def pushCandidate (acc : List String) (value : String) : List String :=
  let normalized := normalizeText value
  if normalized = "" ∨ isNoiseLabel normalized then acc else acc ++ [normalized]

/-- The `labelCandidates` list gathered for one marker. -/
def markerLabelCandidates (m : MarkerModel) : List String :=
  m.attrs.foldl pushCandidate []

/-- Processing of one citation marker (the second `querySelectorAll` loop). -/
def processMarker (st : ExtractState) (m : MarkerModel) : ExtractState :=
  (markerLabelCandidates m).foldl
    (fun st candidate =>
      let cleanedTitle := stripCitationPrefix candidate
      if cleanedTitle ≠ "" ∧ ¬ (isNoiseLabel cleanedTitle = true) ∧ ¬ (isNumericOnly cleanedTitle = true)
      then addRef st cleanedTitle none (some candidate)
      else st)
    st

/-- Processing of one non-anchor source-like element (the third loop);
the element's text content is given. -/
def processSourceLike (st : ExtractState) (t : String) : ExtractState :=
  let cleaned := normalizeText t
  if cleaned = "" then st else addRef st cleaned none (some cleaned)

/-- The container's DOM subtree, abstracted to what the script reads. -/
structure ContainerModel where
  anchors : List AnchorModel
  markers : List MarkerModel
  sourceLikeTexts : List String
deriving Repr

/-- The host-side per-reference pass of `extractSourcesFromContainer`
(lines 266-271): re-normalize every field, keep `url` only when truthy. -/
def hostNormalizeRef (r : SourceRef) : SourceRef :=
  { title := normalizeText r.title
    url := match r.url with
      | some u => if u = "" then none else some (normalizeText u)
      | none => none
    raw_text := normalizeText (strOr r.raw_text r.title) }

/-- `extractSourcesFromContainer(container)` (lines 137-274): the in-page
fold over anchors, markers and source-like elements, `refs.slice(0, 30)`,
then the host-side normalization, the non-empty-title filter and the final
`slice(0, MAX_EXTRACTED_SOURCES)`. -/
def extractSourcesFromContainer (c : ContainerModel) : List SourceRef :=
  let st1 := c.anchors.foldl processAnchor ⟨[], []⟩
  let st2 := c.markers.foldl processMarker st1
  let st3 := c.sourceLikeTexts.foldl processSourceLike st2
  let inPage := st3.refs.take 30
  ((inPage.map hostNormalizeRef).filter (fun r => r.title ≠ "")).take 30

/-- The lower-cased `(title, url)` pair of a returned reference, the key the
specification's uniqueness invariant speaks about. -/
def pairKey (r : SourceRef) : String × Option String :=
  (toLowerStr r.title, r.url.map toLowerStr)

/-! ## countResponseElements -/

/-- The loop of `countResponseElements` (lines 390-417).  The page is
abstracted per selector to the `isVisible()` results of its matched
elements (an element whose read fails is skipped, i.e. `false`; a selector
whose query fails contributes `[]`).  `count` persists across selectors and
the loop breaks as soon as it is positive after a selector with matches. -/
def countLoop (count : Nat) : List (List Bool) → Nat
  | [] => count
  | es :: rest =>
    if 0 < es.length then
      let count2 := count + es.count true
      if 0 < count2 then count2 else countLoop count2 rest
    else countLoop count rest

/-- `countResponseElements(page)`: the selector lists are given in the
priority order of `RESPONSE_SELECTORS`. -/
def countResponseElements (selectorMatches : List (List Bool)) : Nat :=
  countLoop 0 selectorMatches

/-- Modelled from the spec: the number of visible elements of the first
selector that yields at least one visible element, `0` when none does. -/
def firstVisibleCount (selectorMatches : List (List Bool)) : Nat :=
  match selectorMatches.find? (fun es => es.any (fun v => v)) with
  | some es => es.count true
  | none => 0

/-! ## extractLatestText

The page, as seen by one call of `extractLatestText`, is abstracted to:
whether the primary `.to-user-container` query succeeded, the
`.message-text-content` text of each container (`none` when the container
has no such element or its read failed non-recoverably), the texts read
along the fallback selector cascade in order, and the result of the
last-resort in-page scan.  Recoverable browser errors abort the whole call
in the source and are outside this model. -/

structure PageModel where
  primaryOk : Bool
  containers : List (Option String)
  fallbackTexts : List String
  lastResort : Option String
deriving DecidableEq, Repr

/-- The scan over all primary containers (lines 651-679): first container
whose trimmed text is non-empty and whose hash is not known. -/
def primaryScan (containers : List (Option String)) (known : List Int) : Option String :=
  match containers with
  | [] => none
  | c :: rest =>
    match c with
    | some text =>
      if trimStr text ≠ "" ∧ hashString (trimStr text) ∉ known then some (trimStr text)
      else primaryScan rest known
    | none => primaryScan rest known

/-- The fallback selector cascade (lines 703-750): first element text whose
trimmed form is non-empty and not known. -/
def fallbackScan (texts : List String) (known : List Int) : Option String :=
  match texts with
  | [] => none
  | t :: rest =>
    if trimStr t ≠ "" ∧ hashString (trimStr t) ∉ known then some (trimStr t)
    else fallbackScan rest known

/-- The fallback selector cascade followed by the last-resort JS evaluation
(lines 752-815); the JS path does not consult `known`. -/
def fallbackPath (pg : PageModel) (known : List Int) : Option String :=
  match fallbackScan pg.fallbackTexts known with
  | some t => some t
  | none =>
    match pg.lastResort with
    | some t => if trimStr t ≠ "" then some (trimStr t) else none
    | none => none

/-- `extractLatestText(page, knownHashes, ...)` (lines 617-816): the early
exit when no new container is structurally possible, the primary scan with
no fall-through, and the fallback paths when the primary query failed. -/
def extractLatestText (pg : PageModel) (known : List Int) : Option String :=
  if pg.primaryOk then
    if pg.containers.length ≤ known.length then none
    else if 0 < pg.containers.length then primaryScan pg.containers known
    else fallbackPath pg known
  else fallbackPath pg known

/-! ## waitForLatestAnswer -/

/-- `knownHashes.add` (a JS `Set` keeps one copy of each element). -/
def insertHash (h : Int) (l : List Int) : List Int := if h ∈ l then l else h :: l

/-- The call-scoped loop state `{knownHashes, lastCandidate, stableCount}`. -/
structure PollState where
  known : List Int
  lastCandidate : Option String
  stableCount : Nat
deriving DecidableEq, Repr

/-- The outcome of processing one poll's extracted candidate. -/
inductive StepResult where
  | cont (st : PollState)
  | done (answer : String)
deriving DecidableEq, Repr

/-- `question.trim().toLowerCase()` (the `sanitizedQuestion` of line 454). -/
def sanitizeQuestion (q : String) : String := toLowerStr (trimStr q)

/-- The candidate-processing block of `waitForLatestAnswer` (lines 512-561):
trim; skip empty; on a question echo record the hash and continue; otherwise
update `stableCount`/`lastCandidate` and return once stable for 3 polls.
`q` is the sanitized question. -/
def processCandidate (q : String) (st : PollState) (candidate : Option String) : StepResult :=
  match candidate with
  | none => .cont st
  | some c =>
    let normalized := trimStr c
    if normalized = "" then .cont st
    else if toLowerStr normalized = q then
      .cont { st with known := insertHash (hashString normalized) st.known }
    else
      let stable := if some normalized = st.lastCandidate then st.stableCount + 1 else 1
      let last := if some normalized = st.lastCandidate then st.lastCandidate else some normalized
      if 3 ≤ stable then .done normalized
      else .cont { st with stableCount := stable, lastCandidate := last }

/-- The polling loop run over a given sequence of extracted candidates
(`none` for a poll that extracted nothing or was skipped by the thinking
indicator); `none` when the sequence ends with no stable answer. -/
def runPolls (q : String) : PollState → List (Option String) → Option String
  | _, [] => none
  | st, p :: rest =>
    match processCandidate q st p with
    | .done a => some a
    | .cont st2 => runPolls q st2 rest

/-- Modelled from the spec's stability law: a text is returned once it has
been observed on three consecutive counted observations; otherwise the
window slides. -/
def stabilizeSpec : List String → Option String
  | a :: b :: c :: rest => if a = b ∧ b = c then some a else stabilizeSpec (b :: c :: rest)
  | _ => none

/-- The stability fold of the loop, abstracted to the counted observations:
`last`/`count` are `lastCandidate`/`stableCount`. -/
def stabilizeFold (last : Option String) (count : Nat) : List String → Option String
  | [] => none
  | o :: rest =>
    if some o = last then
      if 3 ≤ count + 1 then some o else stabilizeFold last (count + 1) rest
    else stabilizeFold (some o) 1 rest

/-- The observations that the loop counts toward stability: the trimmed
candidates that are non-empty and not the question echo. -/
def countedObservations (q : String) (polls : List (Option String)) : List String :=
  polls.filterMap fun p =>
    match p with
    | none => none
    | some c =>
      let n := trimStr c
      if n = "" then none else if toLowerStr n = q then none else some n

/-- Whether poll `p` observes the trimmed string `s` as its candidate. -/
def obsAt (p : Option String) (s : String) : Bool :=
  match p with
  | some c => trimStr c = s
  | none => false

/-- Whether `s` is observed as the candidate on 3 consecutive polls of the
sequence. -/
def hasThreeConsecutive (l : List (Option String)) (s : String) : Bool :=
  match l with
  | p1 :: p2 :: p3 :: rest =>
    (obsAt p1 s && obsAt p2 s && obsAt p3 s) || hasThreeConsecutive (p2 :: p3 :: rest) s
  | _ => false

/-- The outcome of one `waitForLatestAnswer` call: a stable answer, the soft
timeout (`null`), or the thrown poll-guard error. -/
inductive WaitOutcome where
  | answer (s : String)
  | timedOut
  | guardExceeded
deriving DecidableEq, Repr

/-- The post-loop check (lines 572-581): the guard error is thrown when the
poll cap was reached and the re-read clock is still before the deadline;
otherwise the call returns `null`. -/
def exitOutcome (deadline maxPolls : Nat) (now : Nat → Nat) (pollCount : Nat) : WaitOutcome :=
  if maxPolls ≤ pollCount ∧ now (pollCount + 1) < deadline then .guardExceeded else .timedOut

/-- The polling loop (lines 476-581).  `now i` is the `Date.now()` read at
the i-th loop-condition check (the final post-loop read is
`now (pollCount + 1)`); `pages i` and `thinking i` describe the page during
iteration `i`; health checks and poll-interval timing only matter to error
paths outside this model.  Returns the outcome and the final `pollCount`.
`fuel` is `maxPolls - pollCount`, which the loop condition keeps positive. -/
def waitLoop (q : String) (deadline maxPolls : Nat) (now : Nat → Nat)
    (pages : Nat → PageModel) (thinking : Nat → Bool) :
    PollState → Nat → Nat → WaitOutcome × Nat
  | _st, pollCount, 0 => (exitOutcome deadline maxPolls now pollCount, pollCount)
  | st, pollCount, fuel + 1 =>
    if now pollCount < deadline ∧ pollCount < maxPolls then
      if thinking pollCount then
        waitLoop q deadline maxPolls now pages thinking st (pollCount + 1) fuel
      else
        match processCandidate q st (extractLatestText (pages pollCount) st.known) with
        | .done a => (.answer a, pollCount + 1)
        | .cont st2 => waitLoop q deadline maxPolls now pages thinking st2 (pollCount + 1) fuel
    else (exitOutcome deadline maxPolls now pollCount, pollCount)

/-- `Math.max(MIN_POLL_INTERVAL_MS, pollIntervalMs)`. -/
def safePollInterval (pollIntervalMs : Nat) : Nat := max 100 pollIntervalMs

/-- `Math.ceil(timeoutMs / safePollIntervalMs)`. -/
def expectedPolls (timeoutMs pollIntervalMs : Nat) : Nat :=
  (timeoutMs + safePollInterval pollIntervalMs - 1) / safePollInterval pollIntervalMs

/-- `maxPolls = Math.max(MIN_POLL_GUARD, expectedPolls * POLL_GUARD_MULTIPLIER)`. -/
def maxPollsOf (timeoutMs pollIntervalMs : Nat) : Nat :=
  max 120 (expectedPolls timeoutMs pollIntervalMs * 5)

/-- The seeding of `knownHashes` from `ignoreTexts` (lines 457-462). -/
def seedKnown (ignoreTexts : List String) : List Int :=
  ignoreTexts.foldl
    (fun ks t => if trimStr t ≠ "" then insertHash (hashString (trimStr t)) ks else ks) []

/-- `waitForLatestAnswer(page, options)` (lines 432-582), with `t0` the
initial `Date.now()` read that fixes the deadline. -/
def waitForLatestAnswerModel (question : String) (timeoutMs pollIntervalMs : Nat)
    (ignoreTexts : List String) (t0 : Nat) (now : Nat → Nat)
    (pages : Nat → PageModel) (thinking : Nat → Bool) : WaitOutcome × Nat :=
  let maxPolls := maxPollsOf timeoutMs pollIntervalMs
  waitLoop (sanitizeQuestion question) (t0 + timeoutMs) maxPolls now pages thinking
    ⟨seedKnown ignoreTexts, none, 0⟩ 0 maxPolls

/-! ## Proof-side predicates -/

/-- The head of the list, if any, is not whitespace. -/
def headNotWS : List Char → Prop
  | [] => True
  | c :: _ => isWS c = false

/-- Every whitespace character is `' '` and is not followed by whitespace:
the shape of `collapseWS` output. -/
def goodWS : List Char → Prop
  | [] => True
  | c :: cs => (isWS c = true → c = ' ' ∧ headNotWS cs) ∧ goodWS cs

/-- A string that is a fixed point of `normalizeText`. -/
def Canon (s : String) : Prop := normalizeText s = s

/-- The shape of the `(normalizedTitle, normalizedUrl, normalizedRaw)`
triple of every pushed reference: title and url are normalization fixed
points and are not both empty. -/
def TripleOK (t : String × String × String) : Prop :=
  Canon t.1 ∧ Canon t.2.1 ∧ ¬(t.1 = "" ∧ t.2.1 = "")

/-- The reference a triple contributes to the final output: the in-page
push followed by the host-side normalization. -/
def hostRefOf (t : String × String × String) : SourceRef :=
  hostNormalizeRef (mkRef t.1 t.2.1 t.2.2)

/-- The loop state before iteration `i`, reconstructed from the per-poll
page models alone: the clock and guard checks never modify the state, a
thinking poll leaves it unchanged, an answering poll freezes it, and any
other poll applies `processCandidate` (which is where the echoed question's
fingerprint enters `known`). -/
def stateAt (q : String) (pages : Nat → PageModel) (thinking : Nat → Bool)
    (st0 : PollState) : Nat → PollState
  | 0 => st0
  | i + 1 =>
    let st := stateAt q pages thinking st0 i
    if thinking i then st
    else
      match processCandidate q st (extractLatestText (pages i) st.known) with
      | .done _ => st
      | .cont st2 => st2

/-- The invariant of the in-page accumulator: the refs array is the image
of a list of well-shaped triples with pairwise distinct dedup keys, all of
which are registered in the `unique` set. -/
def InvES (st : ExtractState) : Prop :=
  ∃ ts : List (String × String × String),
    st.refs = ts.map (fun t => mkRef t.1 t.2.1 t.2.2) ∧
    ts.Pairwise (fun a b => keyOf a.1 a.2.1 ≠ keyOf b.1 b.2.1) ∧
    (∀ t ∈ ts, keyOf t.1 t.2.1 ∈ st.unique) ∧
    (∀ t ∈ ts, TripleOK t)

/-! ## Whitespace lemmas -/

theorem headNotWS_collapseAux_true (l : List Char) : headNotWS (collapseAux true l) := by
  induction l with
  | nil => trivial
  | cons c cs ih =>
    cases hb : isWS c with
    | true =>
      have he : collapseAux true (c :: cs) = collapseAux true cs := by simp [collapseAux, hb]
      rw [he]; exact ih
    | false =>
      have he : collapseAux true (c :: cs) = c :: collapseAux false cs := by
        simp [collapseAux, hb]
      rw [he]; exact hb

theorem goodWS_collapseAux (l : List Char) : ∀ b, goodWS (collapseAux b l) := by
  induction l with
  | nil => intro b; trivial
  | cons c cs ih =>
    intro b
    cases hb : isWS c with
    | true =>
      cases b
      · have he : collapseAux false (c :: cs) = ' ' :: collapseAux true cs := by
          simp [collapseAux, hb]
        rw [he]
        exact ⟨fun _ => ⟨rfl, headNotWS_collapseAux_true cs⟩, ih true⟩
      · have he : collapseAux true (c :: cs) = collapseAux true cs := by simp [collapseAux, hb]
        rw [he]; exact ih true
    | false =>
      have he : collapseAux b (c :: cs) = c :: collapseAux false cs := by
        simp [collapseAux, hb]
      rw [he]
      exact ⟨fun hc => (by rw [hb] at hc; cases hc), ih false⟩

theorem goodWS_collapse (l : List Char) : goodWS (collapseWS l) := goodWS_collapseAux l false

theorem goodWS_of_append_right {l₁ l₂ : List Char} (h : goodWS (l₁ ++ l₂)) : goodWS l₂ := by
  induction l₁ with
  | nil => exact h
  | cons c cs ih => exact ih h.2

theorem goodWS_of_append_left {l₁ l₂ : List Char} (h : goodWS (l₁ ++ l₂)) : goodWS l₁ := by
  induction l₁ with
  | nil => trivial
  | cons c cs ih =>
    refine ⟨fun hc => ⟨(h.1 hc).1, ?_⟩, ih h.2⟩
    have h2 := (h.1 hc).2
    cases cs with
    | nil => trivial
    | cons d ds => exact h2

theorem goodWS_of_suffix {l₁ l₂ : List Char} (h : l₁ <:+ l₂) (hg : goodWS l₂) : goodWS l₁ := by
  obtain ⟨t, rfl⟩ := h
  exact goodWS_of_append_right hg

theorem goodWS_of_isPrefix {l₁ l₂ : List Char} (h : l₁ <+: l₂) (hg : goodWS l₂) : goodWS l₁ := by
  obtain ⟨t, rfl⟩ := h
  exact goodWS_of_append_left hg

theorem headNotWS_dropWhile (l : List Char) : headNotWS (l.dropWhile isWS) := by
  induction l with
  | nil => trivial
  | cons c cs ih =>
    cases hb : isWS c with
    | true =>
      have he : (c :: cs).dropWhile isWS = cs.dropWhile isWS := by
        simp [List.dropWhile_cons, hb]
      rw [he]; exact ih
    | false =>
      have he : (c :: cs).dropWhile isWS = c :: cs := by simp [List.dropWhile_cons, hb]
      rw [he]; exact hb

theorem dropWhile_eq_self_of_headNotWS {l : List Char} (h : headNotWS l) :
    l.dropWhile isWS = l := by
  cases l with
  | nil => rfl
  | cons c cs =>
    have : isWS c = false := h
    simp [List.dropWhile_cons, this]

theorem headNotWS_of_isPrefix {l₁ l₂ : List Char} (h : l₁ <+: l₂) (hg : headNotWS l₂) :
    headNotWS l₁ := by
  cases l₁ with
  | nil => trivial
  | cons c cs =>
    obtain ⟨t, rfl⟩ := h
    exact hg

theorem dropTrail_isPrefix (l : List Char) : dropTrail l <+: l := by
  have h : l.reverse.dropWhile isWS <:+ l.reverse := List.dropWhile_suffix isWS
  have h2 := List.reverse_prefix.mpr h
  rwa [List.reverse_reverse] at h2

theorem reverse_dropTrail (l : List Char) :
    (dropTrail l).reverse = l.reverse.dropWhile isWS := by
  simp [dropTrail]

theorem dropTrail_eq_self {l : List Char} (h : headNotWS l.reverse) : dropTrail l = l := by
  unfold dropTrail
  rw [dropWhile_eq_self_of_headNotWS h, List.reverse_reverse]

theorem headNotWS_trimChars (l : List Char) : headNotWS (trimChars l) :=
  headNotWS_of_isPrefix (dropTrail_isPrefix _) (headNotWS_dropWhile l)

theorem lastNotWS_trimChars (l : List Char) : headNotWS (trimChars l).reverse := by
  unfold trimChars
  rw [reverse_dropTrail]
  exact headNotWS_dropWhile _

theorem trimChars_eq_self {l : List Char} (h1 : headNotWS l) (h2 : headNotWS l.reverse) :
    trimChars l = l := by
  unfold trimChars
  rw [dropWhile_eq_self_of_headNotWS h1, dropTrail_eq_self h2]

theorem trimChars_trimChars (l : List Char) : trimChars (trimChars l) = trimChars l :=
  trimChars_eq_self (headNotWS_trimChars l) (lastNotWS_trimChars l)

theorem trimStr_trimStr (s : String) : trimStr (trimStr s) = trimStr s :=
  congrArg String.mk (trimChars_trimChars s.data)

theorem goodWS_trimChars {l : List Char} (h : goodWS l) : goodWS (trimChars l) :=
  goodWS_of_isPrefix (dropTrail_isPrefix _)
    (goodWS_of_suffix (List.dropWhile_suffix _) h)

theorem collapseAux_true_eq_false {l : List Char} (h : headNotWS l) :
    collapseAux true l = collapseAux false l := by
  cases l with
  | nil => rfl
  | cons c cs =>
    have : isWS c = false := h
    simp [collapseAux, this]

theorem collapseAux_false_eq_self {l : List Char} (h : goodWS l) : collapseAux false l = l := by
  induction l with
  | nil => rfl
  | cons c cs ih =>
    cases hb : isWS c with
    | true =>
      obtain ⟨hsp, hhd⟩ := h.1 hb
      have he : collapseAux false (c :: cs) = ' ' :: collapseAux true cs := by
        simp [collapseAux, hb]
      rw [he, collapseAux_true_eq_false hhd, ih h.2, hsp]
    | false =>
      have he : collapseAux false (c :: cs) = c :: collapseAux false cs := by
        simp [collapseAux, hb]
      rw [he, ih h.2]

theorem canon_of_trimChars_good {l : List Char} (h : goodWS l) : Canon ⟨trimChars l⟩ := by
  have hg : goodWS (trimChars l) := goodWS_trimChars h
  show String.mk (trimChars (collapseWS (trimChars l))) = String.mk (trimChars l)
  rw [show collapseWS (trimChars l) = trimChars l from collapseAux_false_eq_self hg]
  exact congrArg String.mk (trimChars_trimChars l)

theorem canon_normalizeText (s : String) : Canon (normalizeText s) :=
  canon_of_trimChars_good (goodWS_collapse s.data)

theorem goodWS_of_canon {s : String} (h : Canon s) : goodWS s.data := by
  have hd : s.data = trimChars (collapseWS s.data) := by
    conv_lhs => rw [← h]
    rfl
  rw [hd]
  exact goodWS_trimChars (goodWS_collapse _)

theorem stripCitationPrefix_shape (s : String) :
    ∃ X, stripCitationPrefix s = ⟨trimChars X⟩ ∧ X <:+ s.data := by
  unfold stripCitationPrefix
  split
  · exact ⟨s.data, rfl, List.suffix_rfl⟩
  · split
    · exact ⟨s.data, rfl, List.suffix_rfl⟩
    · next c rest heq =>
        split
        · refine ⟨List.dropWhile isWS rest, rfl, ?_⟩
          have h1 : c :: rest <:+ s.data := by
            rw [← heq]
            exact (List.dropWhile_suffix _).trans
              ((List.dropWhile_suffix _).trans (List.dropWhile_suffix _))
          exact (List.dropWhile_suffix _).trans ((List.suffix_cons c rest).trans h1)
        · exact ⟨s.data, rfl, List.suffix_rfl⟩

theorem canon_stripCitationPrefix {s : String} (h : Canon s) :
    Canon (stripCitationPrefix s) := by
  obtain ⟨X, hX, hsuf⟩ := stripCitationPrefix_shape s
  rw [hX]
  exact canon_of_trimChars_good (goodWS_of_suffix hsuf (goodWS_of_canon h))

/-! ## C8: isLikelySameAnswer -/

/-- C8: `isLikelySameAnswer(a, b)` holds exactly when, after whitespace
normalization, neither string is empty and either they are equal or both
are at least 80 characters long and one contains the other. -/
theorem c8_likely_same_iff (a b : String) :
    isLikelySameAnswer a b = true ↔
      (normalizeText a ≠ "" ∧ normalizeText b ≠ "" ∧
        (normalizeText a = normalizeText b ∨
          (80 ≤ (normalizeText a).length ∧ 80 ≤ (normalizeText b).length ∧
            ((normalizeText b).data <:+: (normalizeText a).data ∨
             (normalizeText a).data <:+: (normalizeText b).data)))) := by
  simp only [isLikelySameAnswer]
  split_ifs with h1 h2 h3
  · simp only [Bool.false_eq_true, false_iff]
    rintro ⟨ha, hb, _⟩
    rcases h1 with h | h
    · exact ha h
    · exact hb h
  · push_neg at h1
    simp [h1.1, h1.2, h2]
  · push_neg at h1
    simp [h1.1, h1.2, h2, h3.1, h3.2]
  · push_neg at h1
    simp only [Bool.false_eq_true, false_iff]
    rintro ⟨-, -, hcase⟩
    rcases hcase with h | h
    · exact h2 h
    · exact h3 ⟨h.1, h.2.1⟩

/-! ## C10: countResponseElements -/

theorem countLoop_zero (sels : List (List Bool)) :
    countLoop 0 sels = firstVisibleCount sels := by
  induction sels with
  | nil => rfl
  | cons es rest ih =>
    by_cases hlen : 0 < es.length
    · by_cases hpos : 0 < es.count true
      · have hany : es.any (fun v => v) = true := by
          rw [List.any_eq_true]
          exact ⟨true, List.count_pos_iff.mp hpos, rfl⟩
        have he : countLoop 0 (es :: rest) = es.count true := by
          simp [countLoop, hlen, hpos]
        rw [he]
        unfold firstVisibleCount
        rw [List.find?_cons_of_pos rest hany]
      · have h0 : es.count true = 0 := Nat.eq_zero_of_not_pos hpos
        have hany : ¬ es.any (fun v => v) = true := by
          rw [List.any_eq_true]
          rintro ⟨x, hx, hxt⟩
          have hxtrue : x = true := hxt
          rw [hxtrue] at hx
          exact hpos (List.count_pos_iff.mpr hx)
        have he : countLoop 0 (es :: rest) = countLoop 0 rest := by
          simp [countLoop, hlen, h0]
        rw [he, ih]
        unfold firstVisibleCount
        rw [List.find?_cons_of_neg rest hany]
    · have hnil : es = [] := List.length_eq_zero.mp (Nat.eq_zero_of_not_pos hlen)
      subst hnil
      have he : countLoop 0 ([] :: rest) = countLoop 0 rest := by simp [countLoop]
      rw [he, ih]
      unfold firstVisibleCount
      rw [List.find?_cons_of_neg rest (by simp)]

/-- C10: `countResponseElements` returns the number of visible elements of
the first selector (in priority order) that yields at least one visible
element, and 0 when no selector does; later selectors are never counted. -/
theorem c10_count_first_selector (sels : List (List Bool)) :
    countResponseElements sels = firstVisibleCount sels := countLoop_zero sels

/-! ## C4: the fingerprint -/

theorem toInt32_range (n : Int) : -2 ^ 31 ≤ toInt32 n ∧ toInt32 n < 2 ^ 31 := by
  unfold toInt32
  have h1 : (0 : Int) ≤ (n + 2 ^ 31) % 2 ^ 32 := Int.emod_nonneg _ (by norm_num)
  have h2 : (n + 2 ^ 31) % 2 ^ 32 < 2 ^ 32 := Int.emod_lt_of_pos _ (by norm_num)
  constructor <;> [linarith; linarith [show (2 : Int) ^ 32 = 2 ^ 31 + 2 ^ 31 by norm_num]]

theorem foldl_hashStep_range (l : List Char) :
    ∀ h : Int, -2 ^ 31 ≤ h ∧ h < 2 ^ 31 →
      -2 ^ 31 ≤ l.foldl hashStep h ∧ l.foldl hashStep h < 2 ^ 31 := by
  induction l with
  | nil => intro h hr; exact hr
  | cons c cs ih =>
    intro h _
    exact ih (hashStep h c) (toInt32_range _)

/-- `hashString` always lands in the signed 32-bit range. -/
theorem hashString_range (s : String) :
    -2 ^ 31 ≤ hashString s ∧ hashString s < 2 ^ 31 :=
  foldl_hashStep_range s.data 0 (by norm_num)

/-- C4 counterexample: `"a b"` and `"a  b"` have equal whitespace-normalized
forms, yet the fingerprint the code computes (the hash of the *trimmed*
text) differs, because the hash is taken before any whitespace collapsing. -/
theorem c4_counterexample :
    normalizeText "a b" = normalizeText "a  b" ∧
      hashString (trimStr "a b") ≠ hashString (trimStr "a  b") := by
  constructor
  · rfl
  · decide

/-- C4 amended: the fingerprint is a function of the *trimmed* text — equal
trimmed text gives equal fingerprints — and every fingerprint lies in the
signed 32-bit range. -/
theorem c4_amended_fingerprint (a b : String) (h : trimStr a = trimStr b) :
    hashString (trimStr a) = hashString (trimStr b) ∧
      -2 ^ 31 ≤ hashString (trimStr a) ∧ hashString (trimStr a) < 2 ^ 31 :=
  ⟨congrArg hashString h, hashString_range _⟩

/-- Witness for the amended C4 at a concrete pair of inputs. -/
theorem c4_amended_fingerprint_witness :
    hashString (trimStr "x ") = hashString (trimStr " x") ∧
      -2 ^ 31 ≤ hashString (trimStr "x ") ∧ hashString (trimStr "x ") < 2 ^ 31 :=
  c4_amended_fingerprint "x " " x" (by decide)

/-! ## C1: the stability law -/

theorem stabilizeSpec_cons_ne {x o : String} (h : x ≠ o) (rest : List String) :
    stabilizeSpec (x :: o :: rest) = stabilizeSpec (o :: rest) := by
  cases rest with
  | nil => rfl
  | cons r rest2 => simp [stabilizeSpec, h]

theorem stabilizeFold_one_two (l : List String) :
    ∀ x, stabilizeFold (some x) 1 l = stabilizeSpec (x :: l) ∧
      stabilizeFold (some x) 2 l = stabilizeSpec (x :: x :: l) := by
  induction l with
  | nil => intro x; exact ⟨rfl, rfl⟩
  | cons o rest ih =>
    intro x
    constructor
    · by_cases h : o = x
      · subst h
        have hL : stabilizeFold (some o) 1 (o :: rest) = stabilizeFold (some o) 2 rest := by
          simp [stabilizeFold]
        rw [hL, (ih o).2]
      · have hxo : x ≠ o := fun hh => h hh.symm
        have hL : stabilizeFold (some x) 1 (o :: rest) = stabilizeFold (some o) 1 rest := by
          simp [stabilizeFold, h]
        rw [hL, (ih o).1, stabilizeSpec_cons_ne hxo rest]
    · by_cases h : o = x
      · subst h
        have hL : stabilizeFold (some o) 2 (o :: rest) = some o := by simp [stabilizeFold]
        have hR : stabilizeSpec (o :: o :: o :: rest) = some o := by simp [stabilizeSpec]
        rw [hL, hR]
      · have hxo : x ≠ o := fun hh => h hh.symm
        have hL : stabilizeFold (some x) 2 (o :: rest) = stabilizeFold (some o) 1 rest := by
          simp [stabilizeFold, h]
        have hR : stabilizeSpec (x :: x :: o :: rest) = stabilizeSpec (x :: o :: rest) := by
          simp [stabilizeSpec, hxo]
        rw [hL, (ih o).1, hR, stabilizeSpec_cons_ne hxo rest]

theorem stabilizeFold_none (l : List String) : stabilizeFold none 0 l = stabilizeSpec l := by
  cases l with
  | nil => rfl
  | cons o rest =>
    have hL : stabilizeFold none 0 (o :: rest) = stabilizeFold (some o) 1 rest := by
      simp [stabilizeFold]
    rw [hL, (stabilizeFold_one_two rest o).1]

theorem runPolls_eq_fold (q : String) (polls : List (Option String)) :
    ∀ st : PollState, runPolls q st polls =
      stabilizeFold st.lastCandidate st.stableCount (countedObservations q polls) := by
  induction polls with
  | nil => intro st; rfl
  | cons p rest ih =>
    intro st
    cases p with
    | none =>
      show runPolls q st rest = stabilizeFold _ _ (countedObservations q rest)
      exact ih st
    | some c =>
      by_cases hE : trimStr c = ""
      · have h1 : runPolls q st (some c :: rest) = runPolls q st rest := by
          simp [runPolls, processCandidate, hE]
        have h2 : countedObservations q (some c :: rest) = countedObservations q rest := by
          simp [countedObservations, hE]
        rw [h1, h2, ih st]
      · by_cases hQ : toLowerStr (trimStr c) = q
        · have h1 : runPolls q st (some c :: rest) =
              runPolls q { st with known := insertHash (hashString (trimStr c)) st.known } rest := by
            simp [runPolls, processCandidate, hE, hQ]
          have h2 : countedObservations q (some c :: rest) = countedObservations q rest := by
            simp [countedObservations, hE, hQ]
          rw [h1, h2, ih]
        · have h2 : countedObservations q (some c :: rest) =
              trimStr c :: countedObservations q rest := by
            simp [countedObservations, hE, hQ]
          by_cases hS : some (trimStr c) = st.lastCandidate
          · by_cases h3 : 3 ≤ st.stableCount + 1
            · have h1 : runPolls q st (some c :: rest) = some (trimStr c) := by
                simp [runPolls, processCandidate, hE, hQ, hS, h3]
              rw [h1, h2]
              simp [stabilizeFold, hS, h3]
            · have h1 : runPolls q st (some c :: rest) =
                  runPolls q ⟨st.known, st.lastCandidate, st.stableCount + 1⟩ rest := by
                simp [runPolls, processCandidate, hE, hQ, hS, h3]
              rw [h1, h2, ih]
              simp [stabilizeFold, hS, h3]
          · have h1 : runPolls q st (some c :: rest) =
                runPolls q ⟨st.known, some (trimStr c), 1⟩ rest := by
              simp [runPolls, processCandidate, hE, hQ, hS]
            rw [h1, h2, ih]
            simp [stabilizeFold, hS]

/-- C1 counterexample: with the candidate sequence A, (none), A, A the loop
returns A after the fourth poll although A was never the candidate on 3
consecutive polls — a poll that extracts nothing neither resets the counter
nor interrupts the stability count. -/
theorem c1_counterexample :
    runPolls "q" ⟨[], none, 0⟩ [some "A", none, some "A", some "A"] = some "A" ∧
      hasThreeConsecutive [some "A", none, some "A", some "A"] "A" = false := by
  exact ⟨by decide, by decide⟩

/-- C1 amended: the loop returns a text exactly when the subsequence of
polls that yield a non-empty, non-echo candidate contains that trimmed text
three times in a row (earliest such run wins); the counter compares against
the last *counted* candidate, which may come from an earlier, non-adjacent
poll, and resets to 1 on a change. -/
theorem c1_amended_stability (q : String) (known : List Int) (polls : List (Option String)) :
    runPolls q ⟨known, none, 0⟩ polls = stabilizeSpec (countedObservations q polls) := by
  rw [runPolls_eq_fold q polls ⟨known, none, 0⟩]
  exact stabilizeFold_none _

/-! ## C3: poll guard versus deadline -/

theorem exitOutcome_ne_answer (deadline maxPolls : Nat) (now : Nat → Nat)
    (pollCount : Nat) (s : String) :
    exitOutcome deadline maxPolls now pollCount ≠ .answer s := by
  unfold exitOutcome
  split <;> simp

theorem exitOutcome_guard_iff (deadline maxPolls : Nat) (now : Nat → Nat) (pollCount : Nat) :
    exitOutcome deadline maxPolls now pollCount = .guardExceeded ↔
      (maxPolls ≤ pollCount ∧ now (pollCount + 1) < deadline) := by
  unfold exitOutcome
  split <;> simp_all

theorem exit_pair_guard_iff {deadline maxPolls : Nat} {now : Nat → Nat}
    {pollCount : Nat} {r : WaitOutcome} {p : Nat}
    (h : ((exitOutcome deadline maxPolls now pollCount : WaitOutcome), pollCount) = (r, p)) :
    (r = .guardExceeded ↔ ((∀ s, r ≠ .answer s) ∧ maxPolls ≤ p ∧ now (p + 1) < deadline)) := by
  injection h with h1 h2
  subst h1
  subst h2
  constructor
  · intro hg
    exact ⟨fun s => exitOutcome_ne_answer _ _ _ _ s,
      (exitOutcome_guard_iff _ _ _ _).mp hg⟩
  · rintro ⟨-, h2, h3⟩
    exact (exitOutcome_guard_iff _ _ _ _).mpr ⟨h2, h3⟩

theorem waitLoop_guard_iff (q : String) (deadline maxPolls : Nat) (now : Nat → Nat)
    (pages : Nat → PageModel) (thinking : Nat → Bool) :
    ∀ (fuel : Nat) (st : PollState) (pollCount : Nat) (r : WaitOutcome) (p : Nat),
      waitLoop q deadline maxPolls now pages thinking st pollCount fuel = (r, p) →
      (r = .guardExceeded ↔ ((∀ s, r ≠ .answer s) ∧ maxPolls ≤ p ∧ now (p + 1) < deadline)) := by
  intro fuel
  induction fuel with
  | zero =>
    intro st pollCount r p h
    simp only [waitLoop] at h
    exact exit_pair_guard_iff h
  | succ fuel ih =>
    intro st pollCount r p h
    simp only [waitLoop] at h
    by_cases hc : now pollCount < deadline ∧ pollCount < maxPolls
    · rw [if_pos hc] at h
      by_cases ht : thinking pollCount = true
      · rw [if_pos ht] at h
        exact ih _ _ _ _ h
      · rw [if_neg ht] at h
        cases hp : processCandidate q st (extractLatestText (pages pollCount) st.known) with
        | done a =>
          rw [hp] at h
          injection h with h1 h2
          subst h1
          subst h2
          constructor
          · intro hg; cases hg
          · rintro ⟨hans, -, -⟩
            exact absurd rfl (hans a)
        | cont st2 =>
          rw [hp] at h
          exact ih _ _ _ _ h
    · rw [if_neg hc] at h
      exact exit_pair_guard_iff h

/-- C3: when the loop ends without an answer, it throws the guard error
exactly when the poll cap was reached while the final clock read is still
before the deadline; when the deadline has passed at that read, the call
never throws the guard error (it returns the soft `null` timeout). -/
theorem c3_guard_vs_timeout (question : String) (timeoutMs pollIntervalMs : Nat)
    (ignoreTexts : List String) (t0 : Nat) (now : Nat → Nat) (pages : Nat → PageModel)
    (thinking : Nat → Bool) (r : WaitOutcome) (p : Nat)
    (hrun : waitForLatestAnswerModel question timeoutMs pollIntervalMs ignoreTexts
      t0 now pages thinking = (r, p)) :
    ((∀ s, r ≠ .answer s) → maxPollsOf timeoutMs pollIntervalMs ≤ p →
      now (p + 1) < t0 + timeoutMs → r = .guardExceeded) ∧
    (t0 + timeoutMs ≤ now (p + 1) → r ≠ .guardExceeded) := by
  unfold waitForLatestAnswerModel at hrun
  have h := waitLoop_guard_iff (sanitizeQuestion question) (t0 + timeoutMs)
    (maxPollsOf timeoutMs pollIntervalMs) now pages thinking
    (maxPollsOf timeoutMs pollIntervalMs) ⟨seedKnown ignoreTexts, none, 0⟩ 0 r p hrun
  constructor
  · intro h1 h2 h3
    exact h.mpr ⟨h1, h2, h3⟩
  · intro hd hg
    have := (h.mp hg).2.2
    omega

/-- Witness for C3: a run that exhausts the 120-poll guard with a frozen
clock throws the guard error, and a run whose clock jumps past the deadline
returns the timeout, not the guard error. -/
theorem c3_guard_vs_timeout_witness :
    (waitForLatestAnswerModel "q" 10 1 [] 0 (fun _ => 0)
        (fun _ => ⟨true, [], [], none⟩) (fun _ => true)).1 = .guardExceeded ∧
    (waitForLatestAnswerModel "q" 10 1 [] 0 (fun i => i * 1000)
        (fun _ => ⟨true, [], [], none⟩) (fun _ => true)).1 ≠ .guardExceeded := by
  constructor
  · exact (c3_guard_vs_timeout "q" 10 1 [] 0 (fun _ => 0)
      (fun _ => ⟨true, [], [], none⟩) (fun _ => true) _ _ rfl).1
      (fun s h => WaitOutcome.noConfusion h) (by decide) (by decide)
  · exact (c3_guard_vs_timeout "q" 10 1 [] 0 (fun i => i * 1000)
      (fun _ => ⟨true, [], [], none⟩) (fun _ => true) _ _ rfl).2 (by decide)

/-! ## C5: the question echo -/

/-- C5 counterexample: the candidate `"a b"` and the question `"a  b"` are
equal after whitespace normalization and case folding, yet the loop does
not treat the candidate as the echo: it is not fingerprinted, and it
resets the stability state (counter 0 to 1, candidate recorded), because
the code compares only the *trimmed*, lowercased strings. -/
theorem c5_counterexample :
    toLowerStr (normalizeText "a b") = toLowerStr (normalizeText "a  b") ∧
      processCandidate (sanitizeQuestion "a  b") ⟨[], none, 0⟩ (some "a b") =
        .cont ⟨[], some "a b", 1⟩ := by
  exact ⟨by decide, by decide⟩

/-- C5 amended: whenever the *trimmed*, case-folded candidate equals the
sanitized question, the poll fingerprints the trimmed candidate into the
known set and continues without touching `stableCount` or `lastCandidate`. -/
theorem c5_amended_echo (question c : String) (st : PollState)
    (hne : trimStr c ≠ "") (hq : toLowerStr (trimStr c) = sanitizeQuestion question) :
    processCandidate (sanitizeQuestion question) st (some c) =
      .cont { st with known := insertHash (hashString (trimStr c)) st.known } := by
  simp [processCandidate, hne, hq]

/-- Witness for the amended C5 at a concrete echo. -/
theorem c5_amended_echo_witness :
    processCandidate (sanitizeQuestion "Hi") ⟨[], none, 0⟩ (some " hi ") =
      .cont ⟨insertHash (hashString (trimStr " hi ")) [], none, 0⟩ :=
  c5_amended_echo "Hi" " hi " ⟨[], none, 0⟩ (by decide) (by decide)

/-! ## C6: the early exit of the primary extraction path -/

/-- C6: when the primary container query succeeds and finds no more
containers than there are known fingerprints, `extractLatestText` returns
no candidate at once — for every possible container content, fallback list
and last-resort text, so no text is read and no fallback runs. -/
theorem c6_early_exit (containers : List (Option String)) (fallbackTexts : List String)
    (lastResort : Option String) (known : List Int)
    (h : containers.length ≤ known.length) :
    extractLatestText ⟨true, containers, fallbackTexts, lastResort⟩ known = none := by
  simp [extractLatestText, h]

/-- Witness for C6 at a concrete page. -/
theorem c6_early_exit_witness :
    extractLatestText ⟨true, [some "x"], ["y"], some "z"⟩ [hashString "w"] = none :=
  c6_early_exit [some "x"] ["y"] (some "z") [hashString "w"] (by decide)

/-! ## C9: shape of a returned answer -/

theorem processCandidate_done_eq {q : String} {st : PollState} {c a : String}
    (h : processCandidate q st (some c) = .done a) : a = trimStr c := by
  by_cases hE : trimStr c = ""
  · simp [processCandidate, hE] at h
  · by_cases hQ : toLowerStr (trimStr c) = q
    · simp [processCandidate, hE, hQ] at h
    · by_cases h3 : 3 ≤ (if some (trimStr c) = st.lastCandidate then st.stableCount + 1 else 1)
      · simp [processCandidate, hE, hQ, h3] at h
        exact h.symm
      · simp [processCandidate, hE, hQ, h3] at h

theorem processCandidate_done_shape {q : String} {st : PollState} {cand : Option String}
    {a : String} (h : processCandidate q st cand = .done a) : a ≠ "" ∧ trimStr a = a := by
  cases cand with
  | none => simp [processCandidate] at h
  | some c =>
    have ha := processCandidate_done_eq h
    subst ha
    by_cases hE : trimStr c = ""
    · simp [processCandidate, hE] at h
    · exact ⟨hE, trimStr_trimStr c⟩

theorem waitLoop_answer_trimmed (q : String) (deadline maxPolls : Nat) (now : Nat → Nat)
    (pages : Nat → PageModel) (thinking : Nat → Bool) :
    ∀ (fuel : Nat) (st : PollState) (pollCount : Nat) (s : String) (p : Nat),
      waitLoop q deadline maxPolls now pages thinking st pollCount fuel = (.answer s, p) →
      s ≠ "" ∧ trimStr s = s := by
  intro fuel
  induction fuel with
  | zero =>
    intro st pollCount s p h
    simp only [waitLoop] at h
    injection h with h1 h2
    exact absurd h1 (exitOutcome_ne_answer _ _ _ _ s)
  | succ fuel ih =>
    intro st pollCount s p h
    simp only [waitLoop] at h
    by_cases hc : now pollCount < deadline ∧ pollCount < maxPolls
    · rw [if_pos hc] at h
      by_cases ht : thinking pollCount = true
      · rw [if_pos ht] at h
        exact ih _ _ _ _ h
      · rw [if_neg ht] at h
        cases hp : processCandidate q st (extractLatestText (pages pollCount) st.known) with
        | done a =>
          rw [hp] at h
          injection h with h1 h2
          injection h1 with ha
          subst ha
          exact processCandidate_done_shape hp
        | cont st2 =>
          rw [hp] at h
          exact ih _ _ _ _ h
    · rw [if_neg hc] at h
      injection h with h1 h2
      exact absurd h1 (exitOutcome_ne_answer _ _ _ _ s)

/-- C9: any non-null string returned by `waitForLatestAnswer` is non-empty
and equal to its own trim (no leading or trailing whitespace). -/
theorem c9_trimmed_answer (question : String) (timeoutMs pollIntervalMs : Nat)
    (ignoreTexts : List String) (t0 : Nat) (now : Nat → Nat) (pages : Nat → PageModel)
    (thinking : Nat → Bool) (s : String) (p : Nat)
    (hrun : waitForLatestAnswerModel question timeoutMs pollIntervalMs ignoreTexts
      t0 now pages thinking = (.answer s, p)) :
    s ≠ "" ∧ trimStr s = s := by
  unfold waitForLatestAnswerModel at hrun
  exact waitLoop_answer_trimmed _ _ _ _ _ _ _ _ _ _ _ hrun

/-- Witness for C9 at a concrete stabilizing run. -/
theorem c9_trimmed_answer_witness : "hi" ≠ "" ∧ trimStr "hi" = "hi" :=
  c9_trimmed_answer "q" 1000 1000 [] 0 (fun _ => 0)
    (fun _ => ⟨true, [some "hi"], [], none⟩) (fun _ => false) "hi" 3 (by decide)

/-! ## C2: the novelty law -/

theorem primaryScan_new :
    ∀ {containers : List (Option String)} {known : List Int} {t : String},
      primaryScan containers known = some t →
      hashString t ∉ known ∧ trimStr t = t ∧ t ≠ "" := by
  intro containers
  induction containers with
  | nil => intro known t h; simp [primaryScan] at h
  | cons c rest ih =>
    intro known t h
    cases c with
    | none =>
      exact ih (by simpa [primaryScan] using h)
    | some text =>
      by_cases hcond : trimStr text ≠ "" ∧ hashString (trimStr text) ∉ known
      · rw [show primaryScan (some text :: rest) known = some (trimStr text) by
          simp [primaryScan, hcond]] at h
        injection h with ht
        subst ht
        exact ⟨hcond.2, trimStr_trimStr _, hcond.1⟩
      · exact ih (by simpa [primaryScan, hcond] using h)

theorem extract_primary_new {pg : PageModel} {known : List Int} {t : String}
    (hok : pg.primaryOk = true) (h : extractLatestText pg known = some t) :
    hashString t ∉ known ∧ trimStr t = t ∧ t ≠ "" := by
  unfold extractLatestText at h
  rw [hok] at h
  simp only [if_true] at h
  by_cases hle : pg.containers.length ≤ known.length
  · rw [if_pos hle] at h; cases h
  · rw [if_neg hle] at h
    by_cases hpos : 0 < pg.containers.length
    · rw [if_pos hpos] at h
      exact primaryScan_new h
    · omega

theorem insertHash_subset (h : Int) (l : List Int) : l ⊆ insertHash h l := by
  intro x hx
  unfold insertHash
  split
  · exact hx
  · exact List.mem_cons_of_mem _ hx

theorem processCandidate_cont_known {q : String} {st st2 : PollState} {cand : Option String}
    (h : processCandidate q st cand = .cont st2) : st.known ⊆ st2.known := by
  cases cand with
  | none =>
    have h2 : StepResult.cont st = .cont st2 := h
    injection h2 with h2
    rw [← h2]
    exact fun x hx => hx
  | some c =>
    by_cases hE : trimStr c = ""
    · simp [processCandidate, hE] at h
      rw [← h]
      exact fun x hx => hx
    · by_cases hQ : toLowerStr (trimStr c) = q
      · simp [processCandidate, hE, hQ] at h
        rw [← h]
        exact insertHash_subset _ _
      · by_cases h3 : 3 ≤ (if some (trimStr c) = st.lastCandidate then st.stableCount + 1 else 1)
        · simp [processCandidate, hE, hQ, h3] at h
        · simp [processCandidate, hE, hQ, h3] at h
          rw [← h]
          exact fun x hx => hx

theorem stateAt_known_mono (q : String) (pages : Nat → PageModel) (thinking : Nat → Bool)
    (st0 : PollState) : ∀ i, st0.known ⊆ (stateAt q pages thinking st0 i).known := by
  intro i
  induction i with
  | zero => exact fun x hx => hx
  | succ i ih =>
    intro x hx
    by_cases ht : thinking i = true
    · rw [show stateAt q pages thinking st0 (i + 1) = stateAt q pages thinking st0 i by
        simp [stateAt, ht]]
      exact ih hx
    · cases hp : processCandidate q (stateAt q pages thinking st0 i)
          (extractLatestText (pages i) (stateAt q pages thinking st0 i).known) with
      | done a =>
        rw [show stateAt q pages thinking st0 (i + 1) = stateAt q pages thinking st0 i by
          simp [stateAt, ht, hp]]
        exact ih hx
      | cont st2 =>
        rw [show stateAt q pages thinking st0 (i + 1) = st2 by simp [stateAt, ht, hp]]
        exact processCandidate_cont_known hp (ih hx)

theorem waitLoop_novel_at (q : String) (deadline maxPolls : Nat) (now : Nat → Nat)
    (pages : Nat → PageModel) (thinking : Nat → Bool) (st0 : PollState)
    (hok : ∀ i, (pages i).primaryOk = true) :
    ∀ (fuel i : Nat) (s : String) (p : Nat),
      waitLoop q deadline maxPolls now pages thinking (stateAt q pages thinking st0 i) i fuel
        = (.answer s, p) →
      hashString s ∉ (stateAt q pages thinking st0 (p - 1)).known := by
  intro fuel
  induction fuel with
  | zero =>
    intro i s p h
    simp only [waitLoop] at h
    injection h with h1 h2
    exact absurd h1 (exitOutcome_ne_answer _ _ _ _ s)
  | succ fuel ih =>
    intro i s p h
    simp only [waitLoop] at h
    by_cases hc : now i < deadline ∧ i < maxPolls
    · rw [if_pos hc] at h
      by_cases ht : thinking i = true
      · rw [if_pos ht] at h
        have hstep : stateAt q pages thinking st0 (i + 1) = stateAt q pages thinking st0 i := by
          simp [stateAt, ht]
        rw [← hstep] at h
        exact ih (i + 1) s p h
      · rw [if_neg ht] at h
        cases hcand : extractLatestText (pages i) (stateAt q pages thinking st0 i).known with
        | none =>
          rw [hcand] at h
          have hpc : processCandidate q (stateAt q pages thinking st0 i) none =
              .cont (stateAt q pages thinking st0 i) := rfl
          rw [hpc] at h
          have hstep : stateAt q pages thinking st0 (i + 1) = stateAt q pages thinking st0 i := by
            simp [stateAt, ht, hcand, hpc]
          rw [← hstep] at h
          exact ih (i + 1) s p h
        | some c =>
          rw [hcand] at h
          cases hp : processCandidate q (stateAt q pages thinking st0 i) (some c) with
          | done a =>
            rw [hp] at h
            injection h with h1 h2
            injection h1 with ha
            subst ha
            have hp1 : p - 1 = i := by omega
            rw [hp1]
            obtain ⟨hnot, htr, hne⟩ := extract_primary_new (hok i) hcand
            have hae := processCandidate_done_eq hp
            rw [hae, htr]
            exact hnot
          | cont st2 =>
            rw [hp] at h
            have hstep : stateAt q pages thinking st0 (i + 1) = st2 := by
              simp [stateAt, ht, hcand, hp]
            rw [← hstep] at h
            exact ih (i + 1) s p h
    · rw [if_neg hc] at h
      injection h with h1 h2
      exact absurd h1 (exitOutcome_ne_answer _ _ _ _ s)

/-- C2 counterexample: the last-resort in-page scan does not consult the
known set.  With the primary query failing on every poll, an empty fallback
cascade and a last-resort text equal to a pre-seeded ignore text, the loop
stabilizes on — and returns — a text whose fingerprint was in the known set
from the start. -/
theorem c2_counterexample :
    (waitForLatestAnswerModel "q" 1000 1000 ["K"] 0 (fun _ => 0)
        (fun _ => ⟨false, [], [], some "K"⟩) (fun _ => false)).1 = .answer "K" ∧
      hashString "K" ∈ seedKnown ["K"] := by
  exact ⟨by decide, by decide⟩

/-- C2 amended: as long as every poll's candidate comes from the primary
container path (the primary query succeeds; the known-set-blind last-resort
scan never runs), the final answer's fingerprint is absent from the known
set as it stands at the answering poll — the set that contains the seeded
ignore texts (first conjunct) together with every fingerprint recorded for
the echoed question earlier in the run. -/
theorem c2_amended_novelty (question : String) (timeoutMs pollIntervalMs : Nat)
    (ignoreTexts : List String) (t0 : Nat) (now : Nat → Nat) (pages : Nat → PageModel)
    (thinking : Nat → Bool) (s : String) (p : Nat)
    (hok : ∀ i, (pages i).primaryOk = true)
    (hrun : waitForLatestAnswerModel question timeoutMs pollIntervalMs ignoreTexts
      t0 now pages thinking = (.answer s, p)) :
    seedKnown ignoreTexts ⊆ (stateAt (sanitizeQuestion question) pages thinking
      ⟨seedKnown ignoreTexts, none, 0⟩ (p - 1)).known ∧
    hashString s ∉ (stateAt (sanitizeQuestion question) pages thinking
      ⟨seedKnown ignoreTexts, none, 0⟩ (p - 1)).known := by
  unfold waitForLatestAnswerModel at hrun
  refine ⟨stateAt_known_mono (sanitizeQuestion question) pages thinking
    ⟨seedKnown ignoreTexts, none, 0⟩ (p - 1), ?_⟩
  exact waitLoop_novel_at _ _ _ _ _ _ ⟨seedKnown ignoreTexts, none, 0⟩ hok _ 0 s p hrun

/-- Witness for the amended C2 at a concrete primary-path run in which the
question echo is fingerprinted during the run before the answer appears. -/
theorem c2_amended_novelty_witness :
    seedKnown [] ⊆ (stateAt (sanitizeQuestion "Q")
      (fun _ => ⟨true, [some "Q", some "hi"], [], none⟩) (fun _ => false)
      ⟨seedKnown [], none, 0⟩ (4 - 1)).known ∧
    hashString "hi" ∉ (stateAt (sanitizeQuestion "Q")
      (fun _ => ⟨true, [some "Q", some "hi"], [], none⟩) (fun _ => false)
      ⟨seedKnown [], none, 0⟩ (4 - 1)).known :=
  c2_amended_novelty "Q" 1000 1000 [] 0 (fun _ => 0)
    (fun _ => ⟨true, [some "Q", some "hi"], [], none⟩) (fun _ => false) "hi" 4
    (fun _ => rfl) (by decide)

/-! ## C7: source extraction -/

theorem toLowerStr_empty : toLowerStr "" = "" := rfl

theorem foldl_inv {α β : Type} {P : β → Prop} {f : β → α → β}
    (hstep : ∀ b a, P b → P (f b a)) :
    ∀ (l : List α) (b : β), P b → P (l.foldl f b) := by
  intro l
  induction l with
  | nil => intro b hb; exact hb
  | cons a rest ih => intro b hb; exact ih _ (hstep b a hb)

theorem addRefCore_inv {st : ExtractState} {nt nu : String} (nraw : String)
    (hnt : Canon nt) (hnu : Canon nu) (hinv : InvES st) :
    InvES (addRefCore st nt nu nraw) := by
  obtain ⟨ts, hrefs, hpw, hkeys, hok⟩ := hinv
  unfold addRefCore
  by_cases h1 : nt = "" ∧ nu = ""
  · rw [if_pos h1]; exact ⟨ts, hrefs, hpw, hkeys, hok⟩
  · rw [if_neg h1]
    by_cases h2 : nu = "" ∧ (isNoiseLabel nt ∨ isNumericOnly nt)
    · rw [if_pos h2]; exact ⟨ts, hrefs, hpw, hkeys, hok⟩
    · rw [if_neg h2]
      by_cases h3 : keyOf nt nu ∈ st.unique
      · rw [if_pos h3]; exact ⟨ts, hrefs, hpw, hkeys, hok⟩
      · rw [if_neg h3]
        refine ⟨ts ++ [(nt, nu, nraw)], ?_, ?_, ?_, ?_⟩
        · simp [hrefs]
        · rw [List.pairwise_append]
          refine ⟨hpw, List.pairwise_singleton _ _, ?_⟩
          intro a ha b hb
          rw [List.mem_singleton] at hb
          subst hb
          intro hkeq
          exact h3 (hkeq ▸ hkeys a ha)
        · intro t ht
          rcases List.mem_append.mp ht with h | h
          · exact List.mem_cons_of_mem _ (hkeys t h)
          · rw [List.mem_singleton] at h
            subst h
            exact List.mem_cons_self _ _
        · intro t ht
          rcases List.mem_append.mp ht with h | h
          · exact hok t h
          · rw [List.mem_singleton] at h
            subst h
            exact ⟨hnt, hnu, h1⟩

theorem addRef_inv {st : ExtractState} (title : String) (url rawText : Option String)
    (hinv : InvES st) : InvES (addRef st title url rawText) :=
  addRefCore_inv _ (canon_stripCitationPrefix (canon_normalizeText _))
    (canon_normalizeText _) hinv

theorem processAnchor_inv {st : ExtractState} (a : AnchorModel) (h : InvES st) :
    InvES (processAnchor st a) := by
  unfold processAnchor
  split
  · exact h
  · split
    · exact h
    · exact addRef_inv _ _ _ h

theorem processMarker_inv {st : ExtractState} (m : MarkerModel) (h : InvES st) :
    InvES (processMarker st m) := by
  unfold processMarker
  refine foldl_inv ?_ _ _ h
  intro b cand hb
  dsimp only
  split
  · exact addRef_inv _ _ _ hb
  · exact hb

theorem processSourceLike_inv {st : ExtractState} (t : String) (h : InvES st) :
    InvES (processSourceLike st t) := by
  show InvES (if normalizeText t = "" then st
    else addRef st (normalizeText t) none (some (normalizeText t)))
  split
  · exact h
  · exact addRef_inv _ _ _ h

theorem extract_inv (c : ContainerModel) :
    InvES (c.sourceLikeTexts.foldl processSourceLike
      (c.markers.foldl processMarker (c.anchors.foldl processAnchor ⟨[], []⟩))) := by
  have h0 : InvES ⟨[], []⟩ := ⟨[], rfl, List.Pairwise.nil, by simp, by simp⟩
  exact foldl_inv (fun b a hb => processSourceLike_inv a hb) _ _
    (foldl_inv (fun b a hb => processMarker_inv a hb) _ _
      (foldl_inv (fun b a hb => processAnchor_inv a hb) _ _ h0))

theorem host_title_url {nt nu : String} (nraw : String) (hnt : Canon nt) (hnu : Canon nu)
    (hne : ¬(nt = "" ∧ nu = "")) :
    (hostNormalizeRef (mkRef nt nu nraw)).title = (mkRef nt nu nraw).title ∧
    (hostNormalizeRef (mkRef nt nu nraw)).url = (mkRef nt nu nraw).url := by
  have hnt2 : normalizeText nt = nt := hnt
  have hnu2 : normalizeText nu = nu := hnu
  by_cases h1 : nt = ""
  · have h2 : nu ≠ "" := fun hh => hne ⟨h1, hh⟩
    constructor
    · simp [hostNormalizeRef, mkRef, strOr, h1, h2, hnu2]
    · simp [hostNormalizeRef, mkRef, h2, hnu2]
  · constructor
    · simp [hostNormalizeRef, mkRef, strOr, h1, hnt2]
    · by_cases h2 : nu = ""
      · simp [hostNormalizeRef, mkRef, h2]
      · simp [hostNormalizeRef, mkRef, h2, hnu2]

theorem hostRefOf_pair_distinct {t1 t2 : String × String × String}
    (h1 : TripleOK t1) (h2 : TripleOK t2)
    (hk : keyOf t1.1 t1.2.1 ≠ keyOf t2.1 t2.2.1)
    (hp : pairKey (hostRefOf t1) = pairKey (hostRefOf t2)) :
    (hostRefOf t1).url = some (hostRefOf t1).title ∨
    (hostRefOf t2).url = some (hostRefOf t2).title := by
  obtain ⟨hc1, hcu1, hne1⟩ := h1
  obtain ⟨hc2, hcu2, hne2⟩ := h2
  obtain ⟨ht1, hu1⟩ := host_title_url t1.2.2 hc1 hcu1 hne1
  obtain ⟨ht2, hu2⟩ := host_title_url t2.2.2 hc2 hcu2 hne2
  unfold hostRefOf at hp ⊢
  unfold pairKey at hp
  rw [ht1, hu1, ht2, hu2] at hp
  rw [Prod.mk.injEq] at hp
  obtain ⟨hpt, hpu⟩ := hp
  by_cases e1 : t1.2.1 = ""
  · by_cases e2 : t2.2.1 = ""
    · exfalso
      apply hk
      have hn1 : t1.1 ≠ "" := fun hh => hne1 ⟨hh, e1⟩
      have hn2 : t2.1 ≠ "" := fun hh => hne2 ⟨hh, e2⟩
      have htt1 : (mkRef t1.1 t1.2.1 t1.2.2).title = t1.1 := by simp [mkRef, strOr, hn1]
      have htt2 : (mkRef t2.1 t2.2.1 t2.2.2).title = t2.1 := by simp [mkRef, strOr, hn2]
      rw [htt1, htt2] at hpt
      unfold keyOf
      rw [e1, e2, hpt]
    · exfalso
      have hu1e : (mkRef t1.1 t1.2.1 t1.2.2).url = none := by simp [mkRef, e1]
      have hu2e : (mkRef t2.1 t2.2.1 t2.2.2).url = some t2.2.1 := by simp [mkRef, e2]
      rw [hu1e, hu2e] at hpu
      exact Option.noConfusion hpu
  · by_cases e2 : t2.2.1 = ""
    · exfalso
      have hu1e : (mkRef t1.1 t1.2.1 t1.2.2).url = some t1.2.1 := by simp [mkRef, e1]
      have hu2e : (mkRef t2.1 t2.2.1 t2.2.2).url = none := by simp [mkRef, e2]
      rw [hu1e, hu2e] at hpu
      exact Option.noConfusion hpu
    · have hu1e : (mkRef t1.1 t1.2.1 t1.2.2).url = some t1.2.1 := by simp [mkRef, e1]
      have hu2e : (mkRef t2.1 t2.2.1 t2.2.2).url = some t2.2.1 := by simp [mkRef, e2]
      rw [hu1e, hu2e] at hpu
      have hpu2 : toLowerStr t1.2.1 = toLowerStr t2.2.1 := Option.some.injEq .. |>.mp hpu
      clear hpu
      have hpu := hpu2
      by_cases f1 : t1.1 = ""
      · left
        rw [hu1, ht1]
        simp [mkRef, strOr, f1, e1]
      · by_cases f2 : t2.1 = ""
        · right
          rw [hu2, ht2]
          simp [mkRef, strOr, f2, e2]
        · exfalso
          apply hk
          have htt1 : (mkRef t1.1 t1.2.1 t1.2.2).title = t1.1 := by simp [mkRef, strOr, f1]
          have htt2 : (mkRef t2.1 t2.2.1 t2.2.2).title = t2.1 := by simp [mkRef, strOr, f2]
          rw [htt1, htt2] at hpt
          unfold keyOf
          rw [hpt, hpu]

/-- C7 counterexample: two anchors with the same target, one whose link
text `"3:"` strips to an empty label (so its title falls back to the URL)
and one whose text is the URL itself, survive the dedup under different
keys and yield two returned references with the same lower-cased
`(title, url)` pair. -/
theorem c7_counterexample :
    extractSourcesFromContainer ⟨[⟨"http://x", "3:"⟩, ⟨"http://x", "http://x"⟩], [], []⟩ =
      [⟨"http://x", some "http://x", "3:"⟩, ⟨"http://x", some "http://x", "http://x"⟩] ∧
    pairKey ⟨"http://x", some "http://x", "3:"⟩ =
      pairKey ⟨"http://x", some "http://x", "http://x"⟩ := by
  exact ⟨by decide, by decide⟩

/-- C7 amended: one extraction call returns at most 30 references, and no
two returned references share the same lower-cased `(title, url)` pair
unless one of them uses its URL as its title (the fallback taken when the
stripped label was empty). -/
theorem c7_amended_bounded_unique (c : ContainerModel) :
    (extractSourcesFromContainer c).length ≤ 30 ∧
    (extractSourcesFromContainer c).Pairwise
      (fun r1 r2 => pairKey r1 = pairKey r2 →
        r1.url = some r1.title ∨ r2.url = some r2.title) := by
  obtain ⟨ts, hrefs, hpw, hkeys, hok⟩ := extract_inv c
  have hfinal : extractSourcesFromContainer c =
      ((((c.sourceLikeTexts.foldl processSourceLike
        (c.markers.foldl processMarker (c.anchors.foldl processAnchor ⟨[], []⟩))).refs.take
          30).map hostNormalizeRef).filter (fun r => r.title ≠ "")).take 30 := rfl
  constructor
  · rw [hfinal, List.length_take]
    exact min_le_left _ _
  · rw [hfinal, hrefs]
    have hZ : List.Pairwise (fun r1 r2 => pairKey r1 = pairKey r2 →
        r1.url = some r1.title ∨ r2.url = some r2.title) (ts.map hostRefOf) := by
      rw [List.pairwise_map]
      refine hpw.imp_of_mem ?_
      intro a b ha hb hk
      exact hostRefOf_pair_distinct (hok a ha) (hok b hb) hk
    have hmt : ((ts.map (fun t => mkRef t.1 t.2.1 t.2.2)).take 30).map hostNormalizeRef =
        (ts.map hostRefOf).take 30 := by
      rw [← List.map_take, List.map_map]
      rw [List.map_take]
      rfl
    rw [hmt]
    exact List.Pairwise.sublist
      (((List.take_sublist _ _).trans (List.filter_sublist _)).trans (List.take_sublist _ _)) hZ

end NB
